import Mathlib

/-!
Verification development for the journey aggregation and live-presentation
engine of the transit dashboard (`main.go`).

Shallow embedding conventions:
* `time.Time` values are modelled as `Int` nanosecond instants; the Go zero
  time `time.Time{}` is modelled as `0` (`IsZero` becomes `= 0`).
* The raw API timestamp strings `Departure`/`Arrival` are modelled by their
  `parseTime` outcome, an `Option Int`: `none` models an empty or
  unparseable string, `some t` a successfully parsed instant (`some 0` is
  the parseable representation of the Go zero time).
* `time.Duration` values are `Int` (nanoseconds); Go integer division `/`
  on positive operands is `Int.tdiv` (truncation toward zero).
* Go maps `map[string]bool` are association lists `List (String × Bool)`
  with `List.lookup` as indexing; a `nil` map is `[]`.
* Go string operations are modelled over the character lists:
  `strings.ToLower` is `Char.toLower` mapped over the string, and
  `strings.Contains` is substring occurrence (`strHas`).
-/

/-- Head-anchored match: the pattern is an initial segment of the list
(the building block for Go `strings.Contains`). -/
def leadMatch : List Char → List Char → Bool
  | [], _ => true
  | _ :: _, [] => false
  | a :: as, b :: bs => a == b && leadMatch as bs

/-- Substring occurrence over character lists: some suffix of `l` starts
with `sub` (matches Go `strings.Contains l sub`). -/
def hasSub : List Char → List Char → Bool
  | [], sub => leadMatch sub []
  | c :: t, sub => leadMatch sub (c :: t) || hasSub t sub

/-- Go `strings.Contains s sub`. -/
def strHas (s sub : String) : Bool :=
  hasSub s.toList sub.toList

/-- Go `strings.ToLower` (restricted to per-character lowering, which is
what the remark keywords exercise). -/
def lowerStr (s : String) : String :=
  String.mk (s.toList.map Char.toLower)

/-- Embeds Go struct `APIRemark`. -/
structure APIRemark where
  type : String
  code : String
  text : String
deriving DecidableEq

/-- Embeds the `line` object of an API leg: Go `APILine` (the nested color
struct is flattened to the only field read, `Color.BG`). -/
structure APILine where
  name : String
  product : String
  colorBG : String
deriving DecidableEq

/-- Embeds Go struct `APILeg`. `origin`/`destination` keep only the `Name`
field that the code reads; `cycle` is `Cycle.Min` when the pointer is
non-nil. `departure`/`arrival` are the parse results of the raw timestamp
strings (see module header). -/
structure APILeg where
  origin : Option String
  destination : Option String
  departure : Option Int
  arrival : Option Int
  line : Option APILine
  departureDelay : Option Int
  arrivalDelay : Option Int
  departurePlatform : String
  plannedDeparturePlatform : String
  arrivalPlatform : String
  plannedArrivalPlatform : String
  remarks : List APIRemark
  tripId : String
  cycle : Option Int
deriving DecidableEq

/-- Embeds Go struct `APIJourney`. -/
structure APIJourney where
  legs : List APILeg
deriving DecidableEq

/-- Embeds Go struct `Leg` (field `Type` is never written by the builder
and is omitted). -/
structure Leg where
  line : String
  product : String
  fromName : String
  toName : String
  departure : Int
  arrival : Int
  waitBefore : Int
  depDelay : Int
  arrDelay : Int
  occupancy : String
  serviceStatus : List String
  depPlatform : String
  arrPlatform : String
  cycle : Int
  lineColor : String
  tripID : String
deriving DecidableEq

/-- Embeds Go struct `Journey`. -/
structure Journey where
  leaveAt : Int
  arriveAt : Int
  duration : Int
  totalWait : Int
  legs : List Leg
  isNew : Bool
deriving DecidableEq

/-- Embeds `parseOccupancy`: first remark gated by `occup`/`occupancy`
whose text carries a level keyword decides the level; otherwise `""`. -/
def parseOccupancy : List APIRemark → String
  | [] => ""
  | r :: rs =>
    let code := lowerStr r.code
    let text := lowerStr r.text
    if strHas code "occup" || strHas text "occupancy" then
      if strHas text "low" then "low"
      else if strHas text "medium" || strHas text "moderate" then "medium"
      else if strHas text "high" then "high"
      else parseOccupancy rs
    else parseOccupancy rs

/-- Embeds `parseServiceStatus`: texts of `warning`/`status` remarks with
non-empty text, in order. -/
def parseServiceStatus : List APIRemark → List String
  | [] => []
  | r :: rs =>
    if (r.type == "warning" || r.type == "status") && r.text != "" then
      r.text :: parseServiceStatus rs
    else parseServiceStatus rs

/-- Builds one `Leg` value exactly as the loop body of `fetchJourneys`
does, given the parsed departure/arrival and the computed wait. -/
def buildLeg (al : APILeg) (ln : APILine) (dep arr wait : Int) : Leg :=
  { line := ln.name
    product := ln.product
    fromName := al.origin.getD ""
    toName := al.destination.getD ""
    departure := dep
    arrival := arr
    waitBefore := wait
    depDelay := al.departureDelay.getD 0
    arrDelay := al.arrivalDelay.getD 0
    occupancy := parseOccupancy al.remarks
    serviceStatus := parseServiceStatus al.remarks
    depPlatform :=
      if al.departurePlatform == "" then al.plannedDeparturePlatform
      else al.departurePlatform
    arrPlatform :=
      if al.arrivalPlatform == "" then al.plannedArrivalPlatform
      else al.arrivalPlatform
    cycle := match al.cycle with | some m => m.tdiv 60 | none => 0
    lineColor := ln.colorBG
    tripID := al.tripId }

/-- Embeds the per-journey leg loop of `fetchJourneys`: state is
`(prevArrival, totalWait)`; a leg without a line only advances
`prevArrival` to its arrival when that parses; a leg whose departure or
arrival fails to parse is dropped; otherwise a `Leg` is built with
`wait = dep - prev` when `prev` is non-zero and `dep` after it. Returns
the built legs and the final accumulated total wait. -/
def legsLoop : Int → Int → List APILeg → List Leg × Int
  | _, tw, [] => ([], tw)
  | prev, tw, al :: rest =>
    match al.line with
    | none =>
      match al.arrival with
      | some a => legsLoop a tw rest
      | none => legsLoop prev tw rest
    | some ln =>
      match al.departure, al.arrival with
      | some dep, some arr =>
        let wait : Int := if prev ≠ 0 ∧ prev < dep then dep - prev else 0
        let r := legsLoop arr (tw + wait) rest
        (buildLeg al ln dep arr wait :: r.1, r.2)
      | some _, none => legsLoop prev tw rest
      | none, _ => legsLoop prev tw rest

/-- Embeds the per-`APIJourney` body of `fetchJourneys` after the leg
loop: drop when the raw leg list is empty, when no leg was built, when a
non-empty filter map disables the product of some built leg, when the
first raw leg's departure fails to parse, or when the journey start or
last arrival is the zero time; otherwise assemble the `Journey`. -/
def buildJourney (filters : List (String × Bool)) (aj : APIJourney) :
    Option Journey :=
  match aj.legs with
  | [] => none
  | raw0 :: _ =>
    let r := legsLoop 0 0 aj.legs
    match r.1.getLast? with
    | none => none
    | some lastLeg =>
      if 0 < filters.length ∧
          r.1.any (fun leg => filters.lookup leg.product == some false) then
        none
      else
        match raw0.departure with
        | none => none
        | some js =>
          if js = 0 ∨ lastLeg.arrival = 0 then none
          else
            some { leaveAt := js
                   arriveAt := lastLeg.arrival
                   duration := lastLeg.arrival - js
                   totalWait := r.2
                   legs := r.1
                   isNew := true }

/-- The comparison underlying the `sort.Slice` call in `fetchJourneys`
(non-strict form): earlier departure first, ties by smaller total wait. -/
def journeyLE (a b : Journey) : Prop :=
  a.leaveAt < b.leaveAt ∨ (a.leaveAt = b.leaveAt ∧ a.totalWait ≤ b.totalWait)

instance : DecidableRel journeyLE := fun a b => by
  unfold journeyLE; infer_instance

instance : IsTotal Journey journeyLE where
  total a b := by
    unfold journeyLE
    rcases lt_trichotomy a.leaveAt b.leaveAt with h | h | h
    · exact Or.inl (Or.inl h)
    · rcases le_total a.totalWait b.totalWait with h2 | h2
      · exact Or.inl (Or.inr ⟨h, h2⟩)
      · exact Or.inr (Or.inr ⟨h.symm, h2⟩)
    · exact Or.inr (Or.inl h)

instance : IsTrans Journey journeyLE where
  trans a b c hab hbc := by
    unfold journeyLE at *
    rcases hab with h1 | ⟨e1, w1⟩
    · rcases hbc with h2 | ⟨e2, _⟩
      · exact Or.inl (h1.trans h2)
      · exact Or.inl (e2 ▸ h1)
    · rcases hbc with h2 | ⟨e2, w2⟩
      · exact Or.inl (e1 ▸ h2)
      · exact Or.inr ⟨e1.trans e2, w1.trans w2⟩

/-- Embeds the pure transformation of `fetchJourneys` (everything after
JSON decoding): build each journey, drop the filtered/invalid ones, and
sort by departure with ties broken by total wait. -/
def fetchJourneys (filters : List (String × Bool))
    (batch : List APIJourney) : List Journey :=
  (batch.filterMap (buildJourney filters)).insertionSort journeyLE

/-- Declarative reading of one remark for the occupancy scan: `some level`
when the remark is occupancy-gated and carries a level keyword, with `low`
checked before `medium`/`moderate` before `high`; `none` otherwise. Used
to state that `parseOccupancy` is a first-match-wins scan. -/
def occKeyword (r : APIRemark) : Option String :=
  let code := lowerStr r.code
  let text := lowerStr r.text
  if strHas code "occup" || strHas text "occupancy" then
    if strHas text "low" then some "low"
    else if strHas text "medium" || strHas text "moderate" then some "medium"
    else if strHas text "high" then some "high"
    else none
  else none

/-- Embeds the per-line delay-history append of `App.refresh`: push the
sample, then keep only the most recent 20 when the list exceeds 20. -/
def appendDelay (l : List Int) (d : Int) : List Int :=
  let l2 := l ++ [d]
  if l2.length > 20 then l2.drop (l2.length - 20) else l2

/-- Embeds the delay-history update for one built leg: legs with a
strictly positive departure delay append `DepDelay/60` minutes to their
line's sample list (created empty on first use — the map is modelled as a
total function defaulting to `[]`). -/
def recordLeg (h : String → List Int) (leg : Leg) : String → List Int :=
  if leg.depDelay > 0 then
    fun line =>
      if line = leg.line then appendDelay (h leg.line) (leg.depDelay.tdiv 60)
      else h line
  else h

/-- Embeds the delay-history double loop of `App.refresh` over a fresh
journey batch. -/
def recordBatch (h : String → List Int) (js : List Journey) :
    String → List Int :=
  js.foldl (fun acc j => j.legs.foldl recordLeg acc) h

/-- The journey identity used by the novelty detection in `App.refresh`:
`fmt.Sprintf("%s-%s", LeaveAt.Format(RFC3339), Legs[0].Line)`, modelled as
the pair of the departure instant and the first leg's line name (the
RFC3339 rendering of an instant is injective, so the pair carries the same
information). Builder output always has a first leg. -/
def journeyIdent (j : Journey) : Int × String :=
  (j.leaveAt, (j.legs.head?.map (fun l => l.line)).getD "")

/-- Embeds the novelty-detection block of `App.refresh`: mark each fresh
journey new exactly when its identity is absent from the previous cycle's
identity set, collect the fresh identities as the new set (wholesale
replacement), and report whether any journey was new. -/
def detectNew (js : List Journey) (prev : List (Int × String)) :
    List Journey × List (Int × String) × Bool :=
  let marked :=
    js.map (fun j => { j with isNew := decide (journeyIdent j ∉ prev) })
  (marked, js.map journeyIdent, marked.any (fun j => j.isNew))

/-- The slice of `App` state touched by the refresh path (rendering
widgets, favorites and timing fields such as `lastUpdate` and the
500 ms pulse reset are outside the claims and omitted). -/
structure AppState where
  journeys : List Journey
  prevJourneyIDs : List (Int × String)
  selectedIdx : Nat
  isLoading : Bool
  refreshPulse : Bool
  newHighlight : Nat
  delayHistory : String → List Int
  filters : List (String × Bool)

/-- Embeds the `QueueUpdateDraw` callback of `App.refresh` applied to the
fetch outcome: on error (`none`) the journeys slice is set to `nil`; on
success the novelty detection, highlight arming, delay-history update and
publication run; both paths reset the selection and clear the loading
flag. -/
def applyFetchResult (st : AppState) (result : Option (List Journey)) :
    AppState :=
  match result with
  | none =>
    { st with journeys := [], selectedIdx := 0, isLoading := false }
  | some js =>
    let d := detectNew js st.prevJourneyIDs
    { st with
      journeys := d.1
      prevJourneyIDs := d.2.1
      newHighlight := if d.2.2 then 30 else st.newHighlight
      delayHistory := recordBatch st.delayHistory js
      selectedIdx := 0
      isLoading := false }

/-- Embeds one whole `App.refresh` cycle: set the loading and pulse
flags, call `fetchJourneys` with a `nil` filter map (`[]`), and apply the
outcome (`none` models a fetch error). -/
def refreshStep (st : AppState) (fetchResult : Option (List APIJourney)) :
    AppState :=
  applyFetchResult { st with isLoading := true, refreshPulse := true }
    (fetchResult.map (fetchJourneys []))

/-- The filter map `NewApp` installs: every transport mode enabled. -/
def initialFilters : List (String × Bool) :=
  [("suburban", true), ("subway", true), ("tram", true), ("bus", true),
   ("ferry", true), ("regional", true), ("express", true)]

/-- Enables mode `m` in a filter map: every entry keyed `m` is set to
`true` (models flipping one mode's flag from `false` to `true`). -/
def setFlag (f : List (String × Bool)) (m : String) : List (String × Bool) :=
  f.map (fun p => if p.1 = m then (p.1, true) else p)

/-- Chronological raw-leg sequence: all parsed timestamps, read in leg
order as departure then arrival, form a non-decreasing chain starting at
`t` (unparseable fields are skipped). This is the sanity condition on raw
data under which first-departure ≤ last-arrival can hold. -/
def chronoFrom : Int → List APILeg → Prop
  | _, [] => True
  | t, al :: rest =>
    match al.departure, al.arrival with
    | some d, some a => t ≤ d ∧ d ≤ a ∧ chronoFrom a rest
    | some d, none => t ≤ d ∧ chronoFrom d rest
    | none, some a => t ≤ a ∧ chronoFrom a rest
    | none, none => chronoFrom t rest

/-- Membership in the builder output is membership in the pre-sort
filter-map. -/
theorem mem_fetchJourneys {f : List (String × Bool)} {batch : List APIJourney}
    {j : Journey} :
    j ∈ fetchJourneys f batch ↔ ∃ aj ∈ batch, buildJourney f aj = some j := by
  unfold fetchJourneys
  rw [List.mem_insertionSort]
  exact List.mem_filterMap

/-- C5: the occupancy classifier is a first-match-wins scan over the
remark list: it returns the level of the first occupancy-gated remark
carrying a level keyword (checked case-insensitively, `low` before
`medium` before `high` inside each remark) and the empty level when no
remark matches. -/
theorem parseOccupancy_firstMatch (rs : List APIRemark) :
    parseOccupancy rs = ((rs.filterMap occKeyword).head?).getD "" := by
  induction rs with
  | nil => rfl
  | cons r rs ih =>
    simp only [parseOccupancy, occKeyword, List.filterMap_cons]
    split_ifs <;> simp_all

/-- C2: for every filter mapping and raw batch, the produced journey list
is sorted ascending by departure, ties broken by ascending total wait. -/
theorem fetchJourneys_sorted (filters : List (String × Bool))
    (batch : List APIJourney) :
    List.Pairwise
      (fun a b : Journey =>
        a.leaveAt < b.leaveAt ∨
          (a.leaveAt = b.leaveAt ∧ a.totalWait ≤ b.totalWait))
      (fetchJourneys filters batch) :=
  List.sorted_insertionSort journeyLE _

/-- Appending a delay sample keeps the per-line list within the cap. -/
theorem appendDelay_le (l : List Int) (d : Int) (h : l.length ≤ 20) :
    (appendDelay l d).length ≤ 20 := by
  simp only [appendDelay]
  split
  · simp only [List.length_drop, List.length_append, List.length_singleton]
    omega
  · simp only [List.length_append, List.length_singleton] at *
    omega

/-- Recording one leg keeps every line's sample list within the cap. -/
theorem recordLeg_le (h : String → List Int) (leg : Leg)
    (hh : ∀ l, (h l).length ≤ 20) :
    ∀ l, ((recordLeg h leg) l).length ≤ 20 := by
  intro l
  unfold recordLeg
  split
  · dsimp only
    split
    · exact appendDelay_le _ _ (hh _)
    · exact hh l
  · exact hh l

/-- Folding `recordLeg` over a leg list keeps every line's sample list
within the cap. -/
theorem foldl_recordLeg_le (legs : List Leg) :
    ∀ (h : String → List Int), (∀ l, (h l).length ≤ 20) →
      ∀ l, ((legs.foldl recordLeg h) l).length ≤ 20 := by
  induction legs with
  | nil => intro h hh; exact hh
  | cons leg rest ih =>
    intro h hh
    exact ih _ (recordLeg_le h leg hh)

/-- Recording one batch keeps every line's sample list within the cap. -/
theorem recordBatch_le (js : List Journey) :
    ∀ (h : String → List Int), (∀ l, (h l).length ≤ 20) →
      ∀ l, ((recordBatch h js) l).length ≤ 20 := by
  induction js with
  | nil => intro h hh; exact hh
  | cons j rest ih =>
    intro h hh
    exact ih _ (foldl_recordLeg_le j.legs h hh)

/-- C6: over any sequence of recorded batches starting from the empty
history, no line's delay sample list ever exceeds 20 entries; and
appending to a full list of 20 samples evicts exactly the oldest sample
(dropped from the front). -/
theorem delayHistory_cap_evict :
    (∀ (batches : List (List Journey)) (line : String),
        ((batches.foldl recordBatch (fun _ => [])) line).length ≤ 20)
    ∧ ∀ (l : List Int) (d : Int), l.length = 20 →
        appendDelay l d = l.drop 1 ++ [d] := by
  constructor
  · have key : ∀ (batches : List (List Journey)) (h : String → List Int),
        (∀ l, (h l).length ≤ 20) →
        ∀ line, ((batches.foldl recordBatch h) line).length ≤ 20 := by
      intro batches
      induction batches with
      | nil => intro h hh; exact hh
      | cons b rest ih => intro h hh; exact ih _ (recordBatch_le b h hh)
    intro batches line
    exact key batches (fun _ => []) (fun _ => by simp) line
  · intro l d hl
    unfold appendDelay
    have h1 : (l ++ [d]).length = 21 := by simp [hl]
    rw [if_pos (by omega), h1]
    have : l ++ [d] = l.drop 0 ++ [d] := by simp
    cases l with
    | nil => simp at hl
    | cons a t => simp

/-- Witness journey for the delay-history claims: one leg on line `"S7"`
with a 300-second departure delay. -/
def wLegDelay : Leg :=
  { line := "S7", product := "suburban", fromName := "", toName := "",
    departure := 10, arrival := 20, waitBefore := 0, depDelay := 300,
    arrDelay := 0, occupancy := "", serviceStatus := [], depPlatform := "",
    arrPlatform := "", cycle := 0, lineColor := "", tripID := "" }

/-- Witness journey holding `wLegDelay`. -/
def wJourneyDelay : Journey :=
  { leaveAt := 10, arriveAt := 20, duration := 10, totalWait := 0,
    legs := [wLegDelay], isNew := false }

/-- Witness for the delay-history claim at a concrete batch and a concrete
full sample list. -/
theorem delayHistory_cap_evict_witness :
    ((([[wJourneyDelay]] : List (List Journey)).foldl recordBatch
        (fun _ => [])) "S7").length ≤ 20
    ∧ appendDelay (List.replicate 20 (3 : Int)) 7 =
        (List.replicate 20 (3 : Int)).drop 1 ++ [7] :=
  ⟨delayHistory_cap_evict.1 [[wJourneyDelay]] "S7",
   delayHistory_cap_evict.2 (List.replicate 20 3) 7 (by simp)⟩

/-- C7: the novelty detector marks a fresh journey new exactly when its
identity (departure instant, first leg's line) is absent from the previous
cycle's identity set, publishes as new identity set exactly the fresh
list's identities (wholesale replacement), and a second run over the
unchanged fresh list against that published set marks no journey new. -/
theorem detectNew_marks (js : List Journey) (prev : List (Int × String)) :
    (∀ j' ∈ (detectNew js prev).1, (j'.isNew = true ↔ journeyIdent j' ∉ prev))
    ∧ (detectNew js prev).2.1 = js.map journeyIdent
    ∧ (∀ j' ∈ (detectNew js ((detectNew js prev).2.1)).1, j'.isNew = false) := by
  refine ⟨?_, rfl, ?_⟩
  · intro j' hj'
    simp only [detectNew, List.mem_map] at hj'
    obtain ⟨j, _, rfl⟩ := hj'
    simp [journeyIdent]
  · intro j' hj'
    simp only [detectNew, List.mem_map] at hj'
    obtain ⟨j, hj, rfl⟩ := hj'
    exact decide_eq_false (not_not_intro ⟨j, hj, rfl⟩)

/-- Witness journeys for the novelty claims: both runs evaluated on the
one-journey list `[wJourneyDelay]` starting from an empty identity set. -/
theorem detectNew_marks_witness :
    (({ wJourneyDelay with isNew := true } : Journey).isNew = true)
    ∧ (({ wJourneyDelay with isNew := false } : Journey).isNew = false) :=
  ⟨((detectNew_marks [wJourneyDelay] []).1
      { wJourneyDelay with isNew := true } (by decide)).mpr (by decide),
   (detectNew_marks [wJourneyDelay] []).2.2
      { wJourneyDelay with isNew := false } (by decide)⟩

/-- A state holding one published journey, used to exhibit the behaviour
of the error path of `App.refresh`. -/
def cexState : AppState :=
  { journeys := [wJourneyDelay], prevJourneyIDs := [], selectedIdx := 0,
    isLoading := false, refreshPulse := false, newHighlight := 0,
    delayHistory := fun _ => [], filters := initialFilters }

/-- C1 counterexample: a refresh whose fetch errors does NOT leave the
previously published journey list untouched — it clears it to the empty
list. -/
theorem refresh_error_clears_cex :
    (refreshStep cexState none).journeys = [] ∧ cexState.journeys ≠ [] :=
  ⟨rfl, by simp [cexState]⟩

/-- C1 amended: on every refresh cycle whose fetch errors, the published
journey list is reset to empty (`a.journeys = nil`) and the loading flag
is cleared, and the same holds after a second consecutive failure. -/
theorem refresh_error_clears (st : AppState) :
    (refreshStep st none).journeys = []
    ∧ (refreshStep st none).isLoading = false
    ∧ (refreshStep (refreshStep st none) none).journeys = []
    ∧ (refreshStep (refreshStep st none) none).isLoading = false :=
  ⟨rfl, rfl, rfl, rfl⟩

/-- C10: every refresh passes a `nil` filter map to `fetchJourneys`, so
the `filters` field of the application state never influences the
published journey list: two states differing only in that field publish
identical lists on the same fetch outcome. -/
theorem refresh_ignores_filters (st : AppState)
    (f1 f2 : List (String × Bool)) (raw : Option (List APIJourney)) :
    (refreshStep { st with filters := f1 } raw).journeys =
      (refreshStep { st with filters := f2 } raw).journeys := by
  cases raw <;> rfl

/-- Inversion of a successful `buildJourney`: recovers the source legs,
the loop outputs, and every field relation the assembled journey has. -/
theorem buildJourney_inv {filters : List (String × Bool)} {aj : APIJourney}
    {j : Journey} (h : buildJourney filters aj = some j) :
    ∃ raw0 rest lastLeg,
      aj.legs = raw0 :: rest ∧
      j.legs = (legsLoop 0 0 aj.legs).1 ∧
      j.totalWait = (legsLoop 0 0 aj.legs).2 ∧
      j.legs.getLast? = some lastLeg ∧
      raw0.departure = some j.leaveAt ∧
      j.arriveAt = lastLeg.arrival ∧
      j.duration = j.arriveAt - j.leaveAt ∧
      ¬(0 < filters.length ∧
        (legsLoop 0 0 aj.legs).1.any
          (fun leg => filters.lookup leg.product == some false) = true) ∧
      j.leaveAt ≠ 0 ∧ j.arriveAt ≠ 0 := by
  cases hl : aj.legs with
  | nil => unfold buildJourney at h; rw [hl] at h; exact absurd h (by simp)
  | cons raw0 rest =>
    unfold buildJourney at h
    rw [hl] at h
    dsimp only at h
    split at h
    · exact absurd h (by simp)
    rename_i lastLeg hlast
    split at h
    · exact absurd h (by simp)
    rename_i hfil
    split at h
    · exact absurd h (by simp)
    rename_i js hdep
    split at h
    · exact absurd h (by simp)
    rename_i hzero
    rw [Option.some.injEq] at h
    subst h
    refine ⟨raw0, rest, lastLeg, rfl, rfl, rfl, ?_, hdep, rfl, rfl, hfil,
      ?_, ?_⟩
    · exact hlast
    · intro hc; exact hzero (Or.inl hc)
    · intro hc; exact hzero (Or.inr hc)

/-- A walk/transfer raw leg (no line) departing at 5 and arriving at 6. -/
def gapLeg : APILeg :=
  { origin := none, destination := none, departure := some 5,
    arrival := some 6, line := none, departureDelay := none,
    arrivalDelay := none, departurePlatform := "",
    plannedDeparturePlatform := "", arrivalPlatform := "",
    plannedArrivalPlatform := "", remarks := [], tripId := "",
    cycle := none }

/-- The S7 suburban line. -/
def lineS7 : APILine := { name := "S7", product := "suburban", colorBG := "" }

/-- A transit raw leg on line S7 departing at 10 and arriving at 20. -/
def s7Leg : APILeg :=
  { gapLeg with
    departure := some 10, arrival := some 20, line := some lineS7 }

/-- Raw batch whose single journey starts with a walk gap departing
before its only transit leg. -/
def gapFirstBatch : List APIJourney := [⟨[gapLeg, s7Leg]⟩]

/-- C4 counterexample: a journey built from a raw entry whose first raw
leg is a walk gap has `leaveAt` taken from that gap's departure, so
`leaveAt` differs from the first built leg's departure. -/
theorem leaveAt_ne_first_leg_cex :
    ∃ j ∈ fetchJourneys [] gapFirstBatch,
      (j.legs.head?.map (fun l => l.departure)) ≠ some j.leaveAt := by
  decide

/-- C4 amended: for every journey produced by the builder, `leaveAt` is
the parsed departure of the FIRST RAW leg of its source entry (which is
the first built leg's departure only when that raw leg is itself the
first built leg), `arriveAt` is the last built leg's arrival, and
`duration = arriveAt - leaveAt`. -/
theorem journey_derived_fields (filters : List (String × Bool))
    (batch : List APIJourney) :
    ∀ j ∈ fetchJourneys filters batch,
      (∃ aj ∈ batch, ∃ raw0 rest, aj.legs = raw0 :: rest ∧
        raw0.departure = some j.leaveAt)
      ∧ j.legs.getLast?.map (fun l => l.arrival) = some j.arriveAt
      ∧ j.duration = j.arriveAt - j.leaveAt := by
  intro j hj
  obtain ⟨aj, haj, hb⟩ := mem_fetchJourneys.mp hj
  obtain ⟨raw0, rest, lastLeg, hlegs, _, _, hlast, hdep, harr, hdur, _,
    _, _⟩ := buildJourney_inv hb
  refine ⟨⟨aj, haj, raw0, rest, hlegs, hdep⟩, ?_, hdur⟩
  rw [hlast]
  exact congrArg some harr.symm

/-- The journey the builder produces from `gapFirstBatch`. -/
def wJourney4 : Journey :=
  { leaveAt := 5, arriveAt := 20, duration := 15, totalWait := 4,
    legs := [buildLeg s7Leg lineS7 10 20 4], isNew := true }

/-- Witness for the derived-field claim at the concrete batch
`gapFirstBatch`. -/
theorem journey_derived_fields_witness :
    (∃ aj ∈ gapFirstBatch, ∃ raw0 rest, aj.legs = raw0 :: rest ∧
        raw0.departure = some wJourney4.leaveAt)
    ∧ wJourney4.legs.getLast?.map (fun l => l.arrival) =
        some wJourney4.arriveAt
    ∧ wJourney4.duration = wJourney4.arriveAt - wJourney4.leaveAt :=
  journey_derived_fields [] gapFirstBatch wJourney4 (by decide)

/-- A raw leg whose arrival precedes its departure. -/
def backwardsLeg : APILeg :=
  { s7Leg with departure := some 10, arrival := some 5 }

/-- Raw batch holding the inconsistent leg. -/
def backwardsBatch : List APIJourney := [⟨[backwardsLeg]⟩]

/-- C3 counterexample: the builder performs no consistency check between
the journey start and the last arrival, so a raw batch with a leg whose
arrival precedes its departure yields a journey with
`arriveAt < leaveAt`. -/
theorem arrive_before_leave_cex :
    ∃ j ∈ fetchJourneys [] backwardsBatch, j.arriveAt < j.leaveAt := by
  decide

/-- A chronological chain can be restarted from any earlier instant. -/
theorem chrono_weaken (l : List APILeg) : ∀ {s t : Int}, s ≤ t →
    chronoFrom t l → chronoFrom s l := by
  induction l with
  | nil => intro s t _ _; trivial
  | cons al rest ih =>
    intro s t hst hc
    unfold chronoFrom at hc ⊢
    cases hd : al.departure <;> cases ha : al.arrival <;>
        simp only [hd, ha] at hc ⊢
    · exact ih hst hc
    · exact ⟨hst.trans hc.1, hc.2⟩
    · exact ⟨hst.trans hc.1, hc.2⟩
    · exact ⟨hst.trans hc.1, hc.2.1, hc.2.2⟩

/-- Every leg built from a chronological raw-leg chain starting at `t`
departs and arrives no earlier than `t`. -/
theorem chrono_legs (l : List APILeg) : ∀ (t : Int), chronoFrom t l →
    ∀ (prev tw : Int) (leg : Leg), leg ∈ (legsLoop prev tw l).1 →
      t ≤ leg.departure ∧ t ≤ leg.arrival := by
  induction l with
  | nil => intro t _ prev tw leg hm; simp [legsLoop] at hm
  | cons al rest ih =>
    intro t hc prev tw leg hm
    unfold chronoFrom at hc
    cases hline : al.line <;> cases hd : al.departure <;>
        cases ha : al.arrival <;>
        simp only [legsLoop, hline, hd, ha, List.mem_cons] at hm <;>
        simp only [hd, ha] at hc
    · exact ih t hc _ _ leg hm
    · exact ih t (chrono_weaken rest hc.1 hc.2) _ _ leg hm
    · exact ih t (chrono_weaken rest hc.1 hc.2) _ _ leg hm
    · exact ih t (chrono_weaken rest (hc.1.trans hc.2.1) hc.2.2) _ _ leg hm
    · exact ih t hc _ _ leg hm
    · exact ih t (chrono_weaken rest hc.1 hc.2) _ _ leg hm
    · exact ih t (chrono_weaken rest hc.1 hc.2) _ _ leg hm
    · rcases hm with hm | hm
      · subst hm
        exact ⟨hc.1, hc.1.trans hc.2.1⟩
      · exact ih t (chrono_weaken rest (hc.1.trans hc.2.1) hc.2.2)
          _ _ leg hm

/-- In a chronological raw-leg chain whose first leg departs at `js`,
every built leg arrives no earlier than `js`. -/
theorem chrono_first_le (raw0 : APILeg) (rest : List APILeg) (js t : Int)
    (hd : raw0.departure = some js) (hc : chronoFrom t (raw0 :: rest)) :
    ∀ (prev tw : Int) (leg : Leg),
      leg ∈ (legsLoop prev tw (raw0 :: rest)).1 → js ≤ leg.arrival := by
  intro prev tw leg hm
  unfold chronoFrom at hc
  cases hline : raw0.line <;> cases ha : raw0.arrival <;>
      simp only [legsLoop, hline, hd, ha, List.mem_cons] at hm <;>
      simp only [hd, ha] at hc
  · exact (chrono_legs rest js hc.2 _ _ leg hm).2
  · exact (chrono_legs rest js (chrono_weaken rest hc.2.1 hc.2.2)
      _ _ leg hm).2
  · exact (chrono_legs rest js hc.2 _ _ leg hm).2
  · rcases hm with hm | hm
    · subst hm
      exact hc.2.1
    · exact (chrono_legs rest js (chrono_weaken rest hc.2.1 hc.2.2)
        _ _ leg hm).2

/-- A `getLast?` hit is a member of the list. -/
theorem getLast?_mem_list {α : Type} {l : List α} {a : α}
    (h : l.getLast? = some a) : a ∈ l := by
  obtain ⟨hne, rfl⟩ := List.mem_getLast?_eq_getLast h
  exact List.getLast_mem hne

/-- C3 amended: every journey the builder produces has at least one leg;
and whenever every raw entry of the batch is chronologically consistent
(its parsed timestamps form a non-decreasing chain), every produced
journey also satisfies `leaveAt ≤ arriveAt`. The builder itself performs
no such consistency check, so the inequality can fail on inconsistent
raw data (see the counterexample). -/
theorem journeys_nonempty_chrono (filters : List (String × Bool))
    (batch : List APIJourney) :
    ∀ j ∈ fetchJourneys filters batch,
      j.legs ≠ [] ∧
      ((∀ aj ∈ batch, chronoFrom 0 aj.legs) → j.leaveAt ≤ j.arriveAt) := by
  intro j hj
  obtain ⟨aj, haj, hb⟩ := mem_fetchJourneys.mp hj
  obtain ⟨raw0, rest, lastLeg, hlegs, hjlegs, _, hlast, hdep, harr, _, _,
    _, _⟩ := buildJourney_inv hb
  constructor
  · intro hnil
    rw [hnil] at hlast
    simp at hlast
  · intro hchrono
    have hc := hchrono aj haj
    rw [hlegs] at hc
    have hmem : lastLeg ∈ (legsLoop 0 0 aj.legs).1 := by
      rw [← hjlegs]
      exact getLast?_mem_list hlast
    rw [hlegs] at hmem
    rw [harr]
    exact chrono_first_le raw0 rest j.leaveAt 0 hdep hc 0 0 lastLeg hmem

/-- Witness for the amended consistency claim on the chronological batch
`gapFirstBatch`. -/
theorem journeys_nonempty_chrono_witness :
    wJourney4.legs ≠ [] ∧ wJourney4.leaveAt ≤ wJourney4.arriveAt := by
  have h := journeys_nonempty_chrono [] gapFirstBatch wJourney4 (by decide)
  refine ⟨h.1, h.2 ?_⟩
  intro aj haj
  cases haj with
  | head => exact ⟨by decide, by decide, by decide, by decide, trivial⟩
  | tail _ h => cases h

/-- The accumulated total wait of the leg loop is the input accumulator
plus the sum of the built legs' wait times. -/
theorem legsLoop_totalWait (l : List APILeg) : ∀ (prev tw : Int),
    (legsLoop prev tw l).2 =
      tw + ((legsLoop prev tw l).1.map (fun leg => leg.waitBefore)).sum := by
  induction l with
  | nil => intro prev tw; simp [legsLoop]
  | cons al rest ih =>
    intro prev tw
    cases hline : al.line <;> cases hd : al.departure <;>
        cases ha : al.arrival <;>
        simp only [legsLoop, hline, hd, ha, List.map_cons, List.sum_cons]
    · exact ih _ _
    · exact ih _ _
    · exact ih _ _
    · exact ih _ _
    · exact ih _ _
    · exact ih _ _
    · exact ih _ _
    · rw [ih]
      simp only [buildLeg]
      ring

/-- C9: the wait computation of the leg loop. A built leg's wait is 0
when no previous-arrival reference exists (reference 0) and
`max 0 (departure - previousArrival)` otherwise; a walk/transfer gap
carries its parsed arrival into the reference (and leaves it unchanged
when unparseable); and every produced journey's total wait is the sum of
its legs' wait times. -/
theorem wait_formula :
    (∀ (prev tw dep arr : Int) (al : APILeg) (rest : List APILeg)
        (ln : APILine),
        al.line = some ln → al.departure = some dep →
        al.arrival = some arr →
        ((legsLoop prev tw (al :: rest)).1.head?.map
            (fun l => l.waitBefore)) =
          some (if prev = 0 then 0 else max 0 (dep - prev)))
    ∧ (∀ (prev tw : Int) (al : APILeg) (rest : List APILeg) (a : Int),
        al.line = none → al.arrival = some a →
        legsLoop prev tw (al :: rest) = legsLoop a tw rest)
    ∧ (∀ (prev tw : Int) (al : APILeg) (rest : List APILeg),
        al.line = none → al.arrival = none →
        legsLoop prev tw (al :: rest) = legsLoop prev tw rest)
    ∧ (∀ (filters : List (String × Bool)) (batch : List APIJourney),
        ∀ j ∈ fetchJourneys filters batch,
          j.totalWait = (j.legs.map (fun l => l.waitBefore)).sum) := by
  refine ⟨?_, ?_, ?_, ?_⟩
  · intro prev tw dep arr al rest ln hline hd ha
    simp only [legsLoop, hline, hd, ha, List.head?_cons, Option.map_some',
      buildLeg, Option.some.injEq]
    by_cases hp : prev = 0
    · rw [if_pos hp, if_neg (fun h => h.1 hp)]
    · rw [if_neg hp]
      by_cases hlt : prev < dep
      · rw [if_pos ⟨hp, hlt⟩]
        exact (max_eq_right (by omega)).symm
      · rw [if_neg (fun h => hlt h.2)]
        exact (max_eq_left (by omega)).symm
  · intro prev tw al rest a hline ha
    simp only [legsLoop, hline, ha]
  · intro prev tw al rest hline ha
    simp only [legsLoop, hline, ha]
  · intro filters batch j hj
    obtain ⟨aj, _, hb⟩ := mem_fetchJourneys.mp hj
    obtain ⟨_, _, _, _, hjlegs, htw, _, _, _, _, _, _, _⟩ :=
      buildJourney_inv hb
    rw [htw, hjlegs, legsLoop_totalWait]
    simp

/-- Witness for the wait-formula claim: the gap at `gapFirstBatch`
carries arrival 6 into the reference, the built leg's wait is
`max 0 (10 - 6)`, and the produced journey's total wait sums its legs'
waits. -/
theorem wait_formula_witness :
    ((legsLoop 6 0 [s7Leg]).1.head?.map (fun l => l.waitBefore)) =
      some (if (6 : Int) = 0 then 0 else max 0 (10 - 6))
    ∧ legsLoop 0 0 [gapLeg, s7Leg] = legsLoop 6 0 [s7Leg]
    ∧ wJourney4.totalWait =
        (wJourney4.legs.map (fun l => l.waitBefore)).sum :=
  ⟨wait_formula.1 6 0 10 20 s7Leg [] lineS7 rfl rfl rfl,
   wait_formula.2.1 0 0 gapLeg [s7Leg] 6 rfl rfl,
   wait_formula.2.2.2 [] gapFirstBatch wJourney4 (by decide)⟩

/-- Pointwise effect of enabling a mode on map lookups: the enabled key
reads `true` whenever it was present, other keys are unchanged. -/
theorem lookup_setFlag (f : List (String × Bool)) (m x : String) :
    (setFlag f m).lookup x =
      if x = m then (f.lookup x).map (fun _ => true) else f.lookup x := by
  induction f with
  | nil => simp [setFlag]
  | cons p t ih =>
    obtain ⟨k, v⟩ := p
    simp only [setFlag, List.map_cons] at ih ⊢
    by_cases hkm : k = m
    · subst hkm
      by_cases hxk : x = k
      · subst hxk
        simp [List.lookup_cons]
      · simp [List.lookup_cons, beq_eq_false_iff_ne.mpr hxk, hxk, ih]
    · rw [if_neg hkm]
      by_cases hxk : x = k
      · subst hxk
        simp [List.lookup_cons, hkm]
      · simp [List.lookup_cons, beq_eq_false_iff_ne.mpr hxk, ih]

/-- A journey built under one filter map is built identically under any
filter map whose skip guard is also false on its legs. -/
theorem buildJourney_guard_transfer (f g : List (String × Bool))
    (aj : APIJourney) (j : Journey) (h : buildJourney f aj = some j)
    (hg : ¬(0 < g.length ∧ (legsLoop 0 0 aj.legs).1.any
        (fun leg => g.lookup leg.product == some false) = true)) :
    buildJourney g aj = some j := by
  cases hl : aj.legs with
  | nil => unfold buildJourney at h; rw [hl] at h; exact absurd h (by simp)
  | cons raw0 rest =>
    unfold buildJourney at h ⊢
    rw [hl] at h hg ⊢
    dsimp only at h ⊢
    split at h
    · exact absurd h (by simp)
    rename_i lastLeg hlast
    rw [if_neg hg]
    split at h
    · exact absurd h (by simp)
    split at h
    · exact absurd h (by simp)
    rename_i js hdep
    try rw [hdep]
    try dsimp only
    split at h
    · exact absurd h (by simp)
    rename_i hzero
    try rw [if_neg hzero]
    exact h

/-- C8: filtering is monotonic. Flipping one mode's flag from `false` to
`true` (`setFlag`) never removes a journey produced under the stricter
map — it can only add journeys back; and under any non-empty filter map,
no produced journey has a leg whose mode is explicitly mapped to
`false`. -/
theorem filter_monotone :
    (∀ (f : List (String × Bool)) (m : String) (batch : List APIJourney),
        f.lookup m = some false →
        ∀ j ∈ fetchJourneys f batch,
          j ∈ fetchJourneys (setFlag f m) batch)
    ∧ (∀ (g : List (String × Bool)) (batch : List APIJourney), g ≠ [] →
        ∀ j ∈ fetchJourneys g batch, ∀ leg ∈ j.legs,
          g.lookup leg.product ≠ some false) := by
  constructor
  · intro f m batch hfm j hj
    obtain ⟨aj, haj, hb⟩ := mem_fetchJourneys.mp hj
    obtain ⟨_, _, _, _, _, _, _, _, _, _, hfil, _, _⟩ :=
      buildJourney_inv hb
    refine mem_fetchJourneys.mpr ⟨aj, haj, ?_⟩
    refine buildJourney_guard_transfer f _ aj j hb ?_
    rintro ⟨hlen, hany⟩
    rw [List.any_eq_true] at hany
    obtain ⟨leg, hlegmem, hlegf⟩ := hany
    rw [beq_iff_eq, lookup_setFlag] at hlegf
    by_cases hpm : leg.product = m
    · rw [if_pos hpm, hpm, hfm] at hlegf
      simp at hlegf
    · rw [if_neg hpm] at hlegf
      apply hfil
      refine ⟨?_, ?_⟩
      · cases f with
        | nil => simp at hfm
        | cons a t => simp
      · rw [List.any_eq_true]
        exact ⟨leg, hlegmem, by rw [beq_iff_eq]; exact hlegf⟩
  · intro g batch hg j hj leg hleg hlookup
    obtain ⟨aj, haj, hb⟩ := mem_fetchJourneys.mp hj
    obtain ⟨_, _, _, _, hjlegs, _, _, _, _, _, hfil, _, _⟩ :=
      buildJourney_inv hb
    apply hfil
    refine ⟨List.length_pos.mpr hg, ?_⟩
    rw [List.any_eq_true]
    rw [hjlegs] at hleg
    exact ⟨leg, hleg, by rw [beq_iff_eq]; exact hlookup⟩

/-- A filter map that disables buses only. -/
def busOff : List (String × Bool) := [("bus", false)]

/-- Raw batch with a single suburban journey. -/
def s7Batch : List APIJourney := [⟨[s7Leg]⟩]

/-- The journey the builder produces from `s7Batch`. -/
def wJourney8 : Journey :=
  { leaveAt := 10, arriveAt := 20, duration := 10, totalWait := 0,
    legs := [buildLeg s7Leg lineS7 10 20 0], isNew := true }

/-- Witness for the filter-monotonicity claim at concrete inputs: the
suburban journey survives enabling buses, and its leg's mode is not
disabled by the non-empty map. -/
theorem filter_monotone_witness :
    wJourney8 ∈ fetchJourneys (setFlag busOff "bus") s7Batch
    ∧ busOff.lookup (buildLeg s7Leg lineS7 10 20 0).product ≠
        some false :=
  ⟨filter_monotone.1 busOff "bus" s7Batch (by decide) wJourney8
      (by decide),
   filter_monotone.2 busOff s7Batch (by decide) wJourney8 (by decide)
      (buildLeg s7Leg lineS7 10 20 0) (by decide)⟩
